import Mathlib

/-!
# Verification of `src/ConcurrentScheduler.js`

Shallow embedding of the bounded-concurrency task scheduler implemented by the
JavaScript class `ConcurrentScheduler`.  The scheduler is single-threaded
(event-loop) code; its observable behaviour is a sequence of atomic steps:

* `addTask` (the JS method `addTask`): allocates the next id, creates a task
  wrapper with status `pending`, pushes it on `taskQueue`, and synchronously
  calls `executeNext`.
* settlement of a running task's work (the `.then`/`.catch`/`.finally` chain
  installed by `executeNext`): marks the wrapper `completed`/`failed`, signals
  the wrapper's promise (`resolve`/`reject`) with the work's own outcome,
  decrements `runningCount` and calls `executeNext` again.  The whole chain is
  modelled as one atomic step, which is the event-loop concurrency model the
  code relies on.

State mirrors the JS fields `maxConcurrent`, `runningCount`, `taskQueue`,
`taskId`.  JS numbers holding these counters are modelled as `Int` (so that
nonnegativity of `runningCount` is a theorem, not a typing artifact).  The
queue holds task ids; the records themselves live in the ghost field `tasks`,
which lists every wrapper ever created, in creation order — this models the JS
heap where wrappers are shared (aliased) between the queue and the closures of
`executeNext`.  A wrapper's promise is modelled by the field `settled`:
`none` until `resolve`/`reject` is called, then `some` of the work's outcome.
-/

/-- The `status` field of a task wrapper: `'pending'`, `'running'`,
`'completed'` or `'failed'`. -/
inductive Status where
  | pending
  | running
  | completed
  | failed
deriving DecidableEq

/-- Outcome of a task's work: the promise returned by `task()` either
fulfills with a value or rejects with an error. -/
inductive Outcome (V E : Type) where
  | success (v : V)
  | failure (e : E)
deriving DecidableEq

/-- The task wrapper created by `addTask`: `{ id, task, resolve, reject,
status }`.  The `resolve`/`reject` pair (the caller's promise) is modelled by
`settled`; the uninterpreted `task` callable itself is not stored — its eventual
outcome arrives as part of the settlement event. -/
structure TaskRecord (V E : Type) where
  id : Nat
  status : Status
  settled : Option (Outcome V E)
deriving DecidableEq

/-- The scheduler state: the four JS instance fields, plus the ghost record
table `tasks` holding every wrapper ever created, in creation order.
`taskQueue` stores the ids of the wrappers currently in the JS array
`this.taskQueue` (head = index 0). -/
structure ConcurrentScheduler (V E : Type) where
  maxConcurrent : Int
  runningCount : Int
  taskQueue : List Nat
  taskId : Nat
  tasks : List (TaskRecord V E)
deriving DecidableEq

namespace ConcurrentScheduler

variable {V E : Type}

/-- The constructor body: `maxConcurrent` as given (default 3), zero running,
empty queue, `taskId = 0`. -/
def init (V E : Type) (maxConcurrent : Int) : ConcurrentScheduler V E :=
  { maxConcurrent := maxConcurrent
    runningCount := 0
    taskQueue := []
    taskId := 0
    tasks := [] }

/-- `new ConcurrentScheduler(m)`.  The JS constructor performs no validation
whatsoever — it never throws — so the result is always `Except.ok`; the
`Except` return type only makes "is rejected at construction time" a statable
property. -/
def mkScheduler (V E : Type) (maxConcurrent : Int) :
    Except String (ConcurrentScheduler V E) :=
  Except.ok (init V E maxConcurrent)

/-- Mutation of the (unique) wrapper with id `i` in the record table: models a
JS field assignment through an aliased reference. -/
def updateTask (l : List (TaskRecord V E)) (i : Nat)
    (f : TaskRecord V E → TaskRecord V E) : List (TaskRecord V E) :=
  l.map (fun r => if r.id = i then f r else r)

/-- Look up the wrapper with id `i`. -/
def findTask (s : ConcurrentScheduler V E) (i : Nat) : Option (TaskRecord V E) :=
  s.tasks.find? (fun r => r.id == i)

/-- The `status` field of the wrapper with id `i`, if it exists. -/
def statusOf (s : ConcurrentScheduler V E) (i : Nat) : Option Status :=
  (findTask s i).map (fun r => r.status)

/-- The settlement state of the promise of the wrapper with id `i`, if the
wrapper exists: `some none` while unsettled, `some (some o)` once
resolved/rejected with outcome `o`. -/
def settledOf (s : ConcurrentScheduler V E) (i : Nat) :
    Option (Option (Outcome V E)) :=
  (findTask s i).map (fun r => r.settled)

/-- `executeNext`: if `runningCount >= maxConcurrent`, return; shift the
queue head (return if empty); increment `runningCount` and set the shifted
wrapper's status to `'running'`.  The asynchronous execution of its work is
started here in the JS; its settlement is a separate later event. -/
def executeNext (s : ConcurrentScheduler V E) : ConcurrentScheduler V E :=
  if s.maxConcurrent ≤ s.runningCount then s
  else
    match s.taskQueue with
    | [] => s
    | i :: rest =>
      { s with
        taskQueue := rest
        runningCount := s.runningCount + 1
        tasks := updateTask s.tasks i (fun r => { r with status := Status.running }) }

/-- `addTask(task)`: `taskId` is pre-incremented, a wrapper with the new id
and status `'pending'` is created and pushed on the queue, and `executeNext`
runs synchronously.  The returned promise is the new wrapper's `settled`
field (id `s.taskId + 1`). -/
def addTask (s : ConcurrentScheduler V E) : ConcurrentScheduler V E :=
  executeNext
    { s with
      taskId := s.taskId + 1
      taskQueue := s.taskQueue ++ [s.taskId + 1]
      tasks := s.tasks ++ [{ id := s.taskId + 1, status := Status.pending, settled := none }] }

/-- The terminal status the settlement chain assigns: `.then` sets
`'completed'`, `.catch` sets `'failed'`. -/
def terminalOf (o : Outcome V E) : Status :=
  match o with
  | Outcome.success _ => Status.completed
  | Outcome.failure _ => Status.failed

/-- Settlement of the work of the running task `i` with outcome `o`: the
`.then`/`.catch` handler sets the terminal status and signals the wrapper's
promise with the unaltered outcome, then the `.finally` handler decrements
`runningCount` and calls `executeNext`. -/
def settleTask (s : ConcurrentScheduler V E) (i : Nat) (o : Outcome V E) :
    ConcurrentScheduler V E :=
  executeNext
    { s with
      runningCount := s.runningCount - 1
      tasks := updateTask s.tasks i
        (fun r => { r with status := terminalOf o, settled := some o }) }

/-- The snapshot object returned by `getStatus`. -/
structure StatusSnapshot where
  maxConcurrent : Int
  running : Int
  waiting : Nat
  tasks : List (Nat × Option Status)
deriving DecidableEq

/-- `getStatus()`: reads `maxConcurrent`, `runningCount`, the queue length,
and for each queued wrapper its `id` and `status`.  It is a pure function of
the state: the JS method only reads fields and maps over the queue. -/
def getStatus (s : ConcurrentScheduler V E) : StatusSnapshot :=
  { maxConcurrent := s.maxConcurrent
    running := s.runningCount
    waiting := s.taskQueue.length
    tasks := s.taskQueue.map (fun i => (i, statusOf s i)) }

/-- The two kinds of atomic events the event loop delivers to the scheduler:
a caller submitting work, or the work of a dispatched task settling with an
outcome. -/
inductive Event (V E : Type) where
  | submit
  | finish (i : Nat) (o : Outcome V E)

/-- Small-step transition relation.  A `finish` event can only occur for a
task whose work was started, i.e. whose wrapper is currently `'running'`. -/
inductive Step : ConcurrentScheduler V E → Event V E → ConcurrentScheduler V E → Prop where
  | submit (s : ConcurrentScheduler V E) :
      Step s Event.submit (addTask s)
  | finish (s : ConcurrentScheduler V E) (i : Nat) (o : Outcome V E)
      (h : statusOf s i = some Status.running) :
      Step s (Event.finish i o) (settleTask s i o)

/-- States reachable from a freshly constructed scheduler (any
`maxConcurrent`, as the constructor validates nothing). -/
inductive Reachable : ConcurrentScheduler V E → Prop where
  | init (m : Int) : Reachable (init V E m)
  | step {s t : ConcurrentScheduler V E} {e : Event V E} :
      Reachable s → Step s e t → Reachable t

/-- Finitely many steps. -/
inductive Steps : ConcurrentScheduler V E → ConcurrentScheduler V E → Prop where
  | refl (s : ConcurrentScheduler V E) : Steps s s
  | tail {s t u : ConcurrentScheduler V E} {e : Event V E} :
      Steps s t → Step t e u → Steps s u

/-- Finitely many steps none of which is a submission: the scheduler left
alone while running work settles. -/
inductive DrainSteps : ConcurrentScheduler V E → ConcurrentScheduler V E → Prop where
  | refl (s : ConcurrentScheduler V E) : DrainSteps s s
  | tail {s t u : ConcurrentScheduler V E} {i : Nat} {o : Outcome V E} :
      DrainSteps s t → Step t (Event.finish i o) u → DrainSteps s u

/-- Number of wrappers currently `'running'`. -/
def countRunning (l : List (TaskRecord V E)) : Nat :=
  l.countP (fun r => r.status == Status.running)

/-- Number of wrappers currently `'pending'`. -/
def countPending (l : List (TaskRecord V E)) : Nat :=
  l.countP (fun r => r.status == Status.pending)

/-- Number of wrappers not yet in a terminal status. -/
def countActive (l : List (TaskRecord V E)) : Nat :=
  l.countP (fun r => r.status == Status.pending || r.status == Status.running)

/-! ## Basic lemmas about the record-table mutation `updateTask` -/

theorem updateTask_map_id (l : List (TaskRecord V E)) (i : Nat)
    (f : TaskRecord V E → TaskRecord V E) (hf : ∀ r, (f r).id = r.id) :
    (updateTask l i f).map (fun r => r.id) = l.map (fun r => r.id) := by
  induction l with
  | nil => rfl
  | cons r t ih =>
    simp only [updateTask, List.map_cons] at ih ⊢
    by_cases h : r.id = i <;> simp [h, hf, ih]

theorem updateTask_eq_self (l : List (TaskRecord V E)) (i : Nat)
    (f : TaskRecord V E → TaskRecord V E) (h : i ∉ l.map (fun r => r.id)) :
    updateTask l i f = l := by
  induction l with
  | nil => rfl
  | cons r t ih =>
    simp only [List.map_cons, List.mem_cons, not_or] at h
    simp only [updateTask, List.map_cons] at ih ⊢
    have hr : ¬ r.id = i := fun hc => h.1 hc.symm
    simp [hr, ih h.2]

theorem updateTask_cons (r : TaskRecord V E) (t : List (TaskRecord V E))
    (i : Nat) (f : TaskRecord V E → TaskRecord V E) :
    updateTask (r :: t) i f = (if r.id = i then f r else r) :: updateTask t i f := rfl

theorem find?_updateTask_self (l : List (TaskRecord V E)) (i : Nat)
    (f : TaskRecord V E → TaskRecord V E) (hf : ∀ r, (f r).id = r.id) :
    (updateTask l i f).find? (fun r => r.id == i) =
      (l.find? (fun r => r.id == i)).map f := by
  induction l with
  | nil => rfl
  | cons r t ih =>
    rw [updateTask_cons]
    by_cases h : r.id = i
    · rw [if_pos h, List.find?_cons_of_pos _ (by simp [hf, h]),
        List.find?_cons_of_pos _ (by simp [h]), Option.map_some']
    · rw [if_neg h, List.find?_cons_of_neg _ (by simp [h]),
        List.find?_cons_of_neg _ (by simp [h])]
      exact ih

theorem find?_updateTask_ne (l : List (TaskRecord V E)) (i j : Nat)
    (f : TaskRecord V E → TaskRecord V E) (hf : ∀ r, (f r).id = r.id)
    (hne : j ≠ i) :
    (updateTask l i f).find? (fun r => r.id == j) =
      l.find? (fun r => r.id == j) := by
  induction l with
  | nil => rfl
  | cons r t ih =>
    rw [updateTask_cons]
    by_cases h : r.id = i
    · have hj : ¬ (f r).id = j := by rw [hf, h]; exact fun hc => hne hc.symm
      have hj2 : ¬ r.id = j := by rw [h]; exact fun hc => hne hc.symm
      rw [if_pos h, List.find?_cons_of_neg _ (by simp [hj]),
        List.find?_cons_of_neg _ (by simp [hj2])]
      exact ih
    · rw [if_neg h]
      by_cases hj : r.id = j
      · rw [List.find?_cons_of_pos _ (by simp [hj]),
          List.find?_cons_of_pos _ (by simp [hj])]
      · rw [List.find?_cons_of_neg _ (by simp [hj]),
          List.find?_cons_of_neg _ (by simp [hj])]
        exact ih

theorem mem_updateTask {l : List (TaskRecord V E)} {i : Nat}
    {f : TaskRecord V E → TaskRecord V E} {x : TaskRecord V E} :
    x ∈ updateTask l i f ↔ ∃ r ∈ l, x = if r.id = i then f r else r := by
  simp only [updateTask, List.mem_map]
  constructor
  · rintro ⟨r, hr, rfl⟩; exact ⟨r, hr, rfl⟩
  · rintro ⟨r, hr, rfl⟩; exact ⟨r, hr, rfl⟩

theorem countP_updateTask (l : List (TaskRecord V E)) (i : Nat)
    (f : TaskRecord V E → TaskRecord V E) (p : TaskRecord V E → Bool)
    (hnd : (l.map (fun r => r.id)).Nodup)
    (r : TaskRecord V E) (hr : r ∈ l) (hid : r.id = i) :
    (updateTask l i f).countP p + (if p r then 1 else 0) =
      l.countP p + (if p (f r) then 1 else 0) := by
  induction l with
  | nil => cases hr
  | cons x t ih =>
    simp only [List.map_cons, List.nodup_cons] at hnd
    rw [updateTask_cons]
    rcases List.mem_cons.mp hr with hx | ht
    · subst hx
      have hnot : i ∉ t.map (fun r => r.id) := by rw [← hid]; exact hnd.1
      rw [if_pos hid, updateTask_eq_self t i f hnot, List.countP_cons, List.countP_cons]
      by_cases h1 : p (f r) <;> by_cases h2 : p r <;> simp [h1, h2]
    · have hx : ¬ x.id = i := by
        intro hc
        exact hnd.1 (hc ▸ hid ▸ List.mem_map_of_mem (fun r => r.id) ht)
      rw [if_neg hx, List.countP_cons, List.countP_cons]
      have hrec := ih hnd.2 ht
      by_cases h1 : p x <;> by_cases h2 : p r <;> by_cases h3 : p (f r) <;>
        simp [h1, h2, h3] at hrec ⊢ <;> omega

theorem find?_eq_of_mem_nodup {l : List (TaskRecord V E)}
    (hnd : (l.map (fun r => r.id)).Nodup)
    {r : TaskRecord V E} (hr : r ∈ l) :
    l.find? (fun x => x.id == r.id) = some r := by
  induction l with
  | nil => cases hr
  | cons x t ih =>
    simp only [List.map_cons, List.nodup_cons] at hnd
    rcases List.mem_cons.mp hr with hx | ht
    · subst hx
      rw [List.find?_cons_of_pos _ (by simp)]
    · have hx : ¬ x.id = r.id := by
        intro hc
        exact hnd.1 (hc ▸ List.mem_map_of_mem (fun r => r.id) ht)
      rw [List.find?_cons_of_neg _ (by simp [hx])]
      exact ih hnd.2 ht

theorem eq_of_mem_of_id_eq {l : List (TaskRecord V E)}
    (hnd : (l.map (fun r => r.id)).Nodup)
    {r r' : TaskRecord V E} (hr : r ∈ l) (hr' : r' ∈ l) (h : r.id = r'.id) :
    r = r' := by
  have h1 := find?_eq_of_mem_nodup hnd hr
  have h2 := find?_eq_of_mem_nodup hnd hr'
  rw [h] at h1
  rw [h1] at h2
  exact Option.some_injective _ h2

/-! ## The inductive invariant -/

/-- Consistency between a wrapper's `status` and its promise: the promise is
unsettled until the wrapper reaches a terminal status, and a terminal status
holds the matching kind of outcome. -/
def SettledOK (r : TaskRecord V E) : Prop :=
  (r.status = Status.pending → r.settled = none) ∧
  (r.status = Status.running → r.settled = none) ∧
  (r.status = Status.completed → ∃ v, r.settled = some (Outcome.success v)) ∧
  (r.status = Status.failed → ∃ e, r.settled = some (Outcome.failure e))

theorem SettledOK.settled_none {r : TaskRecord V E} (h : SettledOK r)
    (hs : r.status = Status.pending ∨ r.status = Status.running) :
    r.settled = none := by
  rcases hs with hs | hs
  · exact h.1 hs
  · exact h.2.1 hs

/-- Inductive invariant of every reachable scheduler state. -/
structure Inv (s : ConcurrentScheduler V E) : Prop where
  ids : s.tasks.map (fun r => r.id) = List.range' 1 s.taskId
  run_eq : s.runningCount = (countRunning s.tasks : Int)
  run_le : s.runningCount ≤ max s.maxConcurrent 0
  queue_mem : ∀ i ∈ s.taskQueue, i ∈ s.tasks.map (fun r => r.id)
  pending_iff : ∀ r ∈ s.tasks, (r.status = Status.pending ↔ r.id ∈ s.taskQueue)
  queue_sorted : s.taskQueue.Pairwise (fun a b => a < b)
  queue_busy : s.taskQueue ≠ [] → s.maxConcurrent ≤ s.runningCount
  settled_ok : ∀ r ∈ s.tasks, SettledOK r

/-- State of affairs in the middle of `addTask` or of the settlement chain,
just before the trailing call to `executeNext`: the full invariant except
that, when the queue holds at least two entries, one slot may be free. -/
structure PreInv (s : ConcurrentScheduler V E) : Prop where
  ids : s.tasks.map (fun r => r.id) = List.range' 1 s.taskId
  run_eq : s.runningCount = (countRunning s.tasks : Int)
  run_le : s.runningCount ≤ max s.maxConcurrent 0
  queue_mem : ∀ i ∈ s.taskQueue, i ∈ s.tasks.map (fun r => r.id)
  pending_iff : ∀ r ∈ s.tasks, (r.status = Status.pending ↔ r.id ∈ s.taskQueue)
  queue_sorted : s.taskQueue.Pairwise (fun a b => a < b)
  queue_slack : 2 ≤ s.taskQueue.length → s.maxConcurrent ≤ s.runningCount + 1
  settled_ok : ∀ r ∈ s.tasks, SettledOK r

theorem Inv.ids_nodup {s : ConcurrentScheduler V E} (h : Inv s) :
    (s.tasks.map (fun r => r.id)).Nodup := by
  rw [h.ids]; exact List.nodup_range' 1 s.taskId

theorem preInv_ids_nodup {s : ConcurrentScheduler V E} (h : PreInv s) :
    (s.tasks.map (fun r => r.id)).Nodup := by
  rw [h.ids]; exact List.nodup_range' 1 s.taskId

theorem Inv.id_bounds {s : ConcurrentScheduler V E} (h : Inv s)
    {r : TaskRecord V E} (hr : r ∈ s.tasks) : 1 ≤ r.id ∧ r.id ≤ s.taskId := by
  have : r.id ∈ s.tasks.map (fun r => r.id) := List.mem_map_of_mem _ hr
  rw [h.ids, List.mem_range'_1] at this
  omega

theorem Inv.queue_id_le {s : ConcurrentScheduler V E} (h : Inv s)
    {i : Nat} (hi : i ∈ s.taskQueue) : 1 ≤ i ∧ i ≤ s.taskId := by
  have := h.queue_mem i hi
  rw [h.ids, List.mem_range'_1] at this
  omega

/-! ### Symbolic evaluation of `executeNext` -/

theorem executeNext_guard {s : ConcurrentScheduler V E}
    (hg : s.maxConcurrent ≤ s.runningCount) : executeNext s = s := by
  rw [executeNext, if_pos hg]

theorem executeNext_empty {s : ConcurrentScheduler V E}
    (hq : s.taskQueue = []) : executeNext s = s := by
  by_cases hg : s.maxConcurrent ≤ s.runningCount
  · rw [executeNext, if_pos hg]
  · rw [executeNext, if_neg hg, hq]

theorem executeNext_dispatch {s : ConcurrentScheduler V E} {i : Nat} {rest : List Nat}
    (hg : ¬ s.maxConcurrent ≤ s.runningCount) (hq : s.taskQueue = i :: rest) :
    executeNext s =
      { s with
        taskQueue := rest
        runningCount := s.runningCount + 1
        tasks := updateTask s.tasks i (fun r => { r with status := Status.running }) } := by
  rw [executeNext, if_neg hg, hq]

theorem executeNext_inv {s : ConcurrentScheduler V E} (h : PreInv s) :
    Inv (executeNext s) := by
  by_cases hg : s.maxConcurrent ≤ s.runningCount
  · rw [executeNext_guard hg]
    exact ⟨h.ids, h.run_eq, h.run_le, h.queue_mem, h.pending_iff, h.queue_sorted,
      fun _ => hg, h.settled_ok⟩
  · cases hq : s.taskQueue with
    | nil =>
      rw [executeNext_empty hq]
      exact ⟨h.ids, h.run_eq, h.run_le, h.queue_mem, h.pending_iff, h.queue_sorted,
        fun hne => absurd hq hne, h.settled_ok⟩
    | cons i rest =>
      rw [executeNext_dispatch hg hq]
      have hiq : i ∈ s.taskQueue := by rw [hq]; exact List.mem_cons_self i rest
      obtain ⟨r0, hr0mem, hr0id⟩ := List.mem_map.mp (h.queue_mem i hiq)
      have hr0pending : r0.status = Status.pending :=
        (h.pending_iff r0 hr0mem).mpr (hr0id ▸ hiq)
      have hidpres : ∀ r : TaskRecord V E,
          ({ r with status := Status.running } : TaskRecord V E).id = r.id :=
        fun r => rfl
      have hmapid := updateTask_map_id s.tasks i
        (fun r => { r with status := Status.running }) hidpres
      have hsorted : (i :: rest).Pairwise (fun a b => a < b) := hq ▸ h.queue_sorted
      have hinotrest : i ∉ rest := by
        intro hc
        exact lt_irrefl i ((List.pairwise_cons.mp hsorted).1 i hc)
      refine ⟨?_, ?_, ?_, ?_, ?_, ?_, ?_, ?_⟩
      · show (updateTask s.tasks i _).map _ = _
        rw [hmapid]
        exact h.ids
      · show s.runningCount + 1 = (countRunning (updateTask s.tasks i _) : Int)
        have hcount := countP_updateTask s.tasks i
          (fun r => { r with status := Status.running })
          (fun r => r.status == Status.running) (preInv_ids_nodup h) r0 hr0mem hr0id
        simp [hr0pending] at hcount
        have hre := h.run_eq
        simp only [countRunning] at hre ⊢
        omega
      · show s.runningCount + 1 ≤ max s.maxConcurrent 0
        have h1 : s.runningCount < s.maxConcurrent := lt_of_not_le hg
        have h2 : s.maxConcurrent ≤ max s.maxConcurrent 0 := le_max_left _ _
        omega
      · intro j hj
        show j ∈ (updateTask s.tasks i _).map _
        rw [hmapid]
        exact h.queue_mem j (by rw [hq]; exact List.mem_cons_of_mem i hj)
      · intro x hx
        obtain ⟨r, hrmem, hreq⟩ := mem_updateTask.mp hx
        by_cases hid : r.id = i
        · rw [if_pos hid] at hreq
          subst hreq
          constructor
          · intro hc; cases hc
          · intro hc
            have hc2 : r.id ∈ rest := hc
            exact absurd (hid ▸ hc2) hinotrest
        · rw [if_neg hid] at hreq
          subst hreq
          have hiff := h.pending_iff x hrmem
          rw [hq] at hiff
          simp only [List.mem_cons] at hiff
          constructor
          · intro hp
            rcases hiff.mp hp with hceq | hcrest
            · exact absurd hceq hid
            · exact hcrest
          · intro hp
            exact hiff.mpr (Or.inr hp)
      · exact (List.pairwise_cons.mp hsorted).2
      · intro hne
        have hlen : 2 ≤ s.taskQueue.length := by
          rw [hq]
          cases rest with
          | nil => exact absurd rfl hne
          | cons a t =>
            rw [List.length_cons, List.length_cons]
            omega
        have := h.queue_slack hlen
        show s.maxConcurrent ≤ s.runningCount + 1
        omega
      · intro x hx
        obtain ⟨r, hrmem, hreq⟩ := mem_updateTask.mp hx
        by_cases hid : r.id = i
        · rw [if_pos hid] at hreq
          subst hreq
          have hnone : r.settled = none :=
            (h.settled_ok r hrmem).settled_none (Or.inl
              ((h.pending_iff r hrmem).mpr (hid ▸ hiq)))
          exact ⟨(fun hc => nomatch hc), (fun _ => hnone),
            (fun hc => nomatch hc), (fun hc => nomatch hc)⟩
        · rw [if_neg hid] at hreq
          subst hreq
          exact h.settled_ok x hrmem

theorem addTask_inv {s : ConcurrentScheduler V E} (h : Inv s) : Inv (addTask s) := by
  apply executeNext_inv
  refine ⟨?_, ?_, ?_, ?_, ?_, ?_, ?_, ?_⟩
  · show (s.tasks ++ [_]).map _ = List.range' 1 (s.taskId + 1)
    rw [List.map_append, h.ids, List.range'_1_concat, Nat.add_comm 1 s.taskId]
    rfl
  · show s.runningCount = (countRunning (s.tasks ++ [_]) : Int)
    rw [countRunning, List.countP_append]
    have : (List.countP (fun r => r.status == Status.running)
        [({ id := s.taskId + 1, status := Status.pending, settled := none } : TaskRecord V E)]) = 0 := rfl
    rw [this, Nat.add_zero]
    exact h.run_eq
  · exact h.run_le
  · intro j hj
    show j ∈ (s.tasks ++ [_]).map _
    rw [List.map_append]
    rcases List.mem_append.mp hj with hl | hr
    · exact List.mem_append_left _ (h.queue_mem j hl)
    · apply List.mem_append_right
      simpa using List.mem_singleton.mp hr
  · intro x hx
    rcases List.mem_append.mp hx with hl | hr
    · have hiff := h.pending_iff x hl
      have hlt : x.id ≤ s.taskId := (h.id_bounds hl).2
      constructor
      · intro hp
        exact List.mem_append_left _ (hiff.mp hp)
      · intro hp
        rcases List.mem_append.mp hp with hq1 | hq2
        · exact hiff.mpr hq1
        · have : x.id = s.taskId + 1 := List.mem_singleton.mp hq2
          omega
    · have hx2 : x = { id := s.taskId + 1, status := Status.pending, settled := none } :=
        List.mem_singleton.mp hr
      subst hx2
      constructor
      · intro _
        exact List.mem_append_right _ (List.mem_singleton.mpr rfl)
      · intro _
        rfl
  · rw [List.pairwise_append]
    refine ⟨h.queue_sorted, List.pairwise_singleton _ _, ?_⟩
    intro a ha b hb
    have hb2 : b = s.taskId + 1 := List.mem_singleton.mp hb
    have := (h.queue_id_le ha).2
    omega
  · intro hlen
    rw [List.length_append, List.length_singleton] at hlen
    have hne : s.taskQueue ≠ [] := by
      intro hc
      rw [hc] at hlen
      simp at hlen
    have := h.queue_busy hne
    show s.maxConcurrent ≤ s.runningCount + 1
    omega
  · intro x hx
    rcases List.mem_append.mp hx with hl | hr
    · exact h.settled_ok x hl
    · have hx2 : x = { id := s.taskId + 1, status := Status.pending, settled := none } :=
        List.mem_singleton.mp hr
      subst hx2
      exact ⟨(fun _ => rfl), (fun _ => rfl),
        (fun hc => nomatch hc), (fun hc => nomatch hc)⟩

theorem statusOf_running_elim {s : ConcurrentScheduler V E} {i : Nat}
    (hrun : statusOf s i = some Status.running) :
    ∃ r, s.tasks.find? (fun x => x.id == i) = some r ∧ r ∈ s.tasks ∧
      r.id = i ∧ r.status = Status.running := by
  cases hf : findTask s i with
  | none => rw [statusOf, hf] at hrun; cases hrun
  | some r =>
    rw [statusOf, hf] at hrun
    have hst : r.status = Status.running := by
      simpa using hrun
    have hmem : r ∈ s.tasks := List.mem_of_find?_eq_some hf
    have hid : r.id = i := by simpa using List.find?_some hf
    exact ⟨r, hf, hmem, hid, hst⟩

theorem terminal_ne_running (o : Outcome V E) : terminalOf o ≠ Status.running := by
  cases o <;> intro hc <;> cases hc

theorem terminal_ne_pending (o : Outcome V E) : terminalOf o ≠ Status.pending := by
  cases o <;> intro hc <;> cases hc

theorem settleTask_inv {s : ConcurrentScheduler V E} {i : Nat} {o : Outcome V E}
    (h : Inv s) (hrun : statusOf s i = some Status.running) :
    Inv (settleTask s i o) := by
  obtain ⟨r0, hfind, hr0mem, hr0id, hst⟩ := statusOf_running_elim hrun
  have hinotq : i ∉ s.taskQueue := by
    intro hc
    have := (h.pending_iff r0 hr0mem).mpr (hr0id ▸ hc)
    rw [hst] at this
    cases this
  apply executeNext_inv
  have hidpres : ∀ r : TaskRecord V E,
      ({ r with status := terminalOf o, settled := some o } : TaskRecord V E).id = r.id :=
    fun r => rfl
  have hmapid := updateTask_map_id s.tasks i
    (fun r => { r with status := terminalOf o, settled := some o }) hidpres
  refine ⟨?_, ?_, ?_, ?_, ?_, ?_, ?_, ?_⟩
  · show (updateTask s.tasks i _).map _ = _
    rw [hmapid]
    exact h.ids
  · show s.runningCount - 1 = (countRunning (updateTask s.tasks i _) : Int)
    have hcount := countP_updateTask s.tasks i
      (fun r => { r with status := terminalOf o, settled := some o })
      (fun r => r.status == Status.running) h.ids_nodup r0 hr0mem hr0id
    have hterm : (terminalOf o == Status.running) = false := by
      cases o <;> rfl
    simp [hst, hterm] at hcount
    have hre := h.run_eq
    simp only [countRunning] at hre ⊢
    omega
  · show s.runningCount - 1 ≤ max s.maxConcurrent 0
    have := h.run_le
    omega
  · intro j hj
    show j ∈ (updateTask s.tasks i _).map _
    rw [hmapid]
    exact h.queue_mem j hj
  · intro x hx
    obtain ⟨r, hrmem, hreq⟩ := mem_updateTask.mp hx
    by_cases hid : r.id = i
    · rw [if_pos hid] at hreq
      subst hreq
      constructor
      · intro hc
        exact absurd hc (terminal_ne_pending o)
      · intro hc
        have hc2 : r.id ∈ s.taskQueue := hc
        exact absurd (hid ▸ hc2) hinotq
    · rw [if_neg hid] at hreq
      subst hreq
      exact h.pending_iff x hrmem
  · exact h.queue_sorted
  · intro hlen
    have hne : s.taskQueue ≠ [] := by
      intro hc
      rw [hc] at hlen
      simp at hlen
    have := h.queue_busy hne
    show s.maxConcurrent ≤ s.runningCount - 1 + 1
    omega
  · intro x hx
    obtain ⟨r, hrmem, hreq⟩ := mem_updateTask.mp hx
    by_cases hid : r.id = i
    · rw [if_pos hid] at hreq
      subst hreq
      cases o with
      | success v =>
        exact ⟨(fun hc => nomatch hc), (fun hc => nomatch hc),
          (fun _ => ⟨v, rfl⟩), (fun hc => nomatch hc)⟩
      | failure e =>
        exact ⟨(fun hc => nomatch hc), (fun hc => nomatch hc),
          (fun hc => nomatch hc), (fun _ => ⟨e, rfl⟩)⟩
    · rw [if_neg hid] at hreq
      subst hreq
      exact h.settled_ok x hrmem

theorem init_inv (V E : Type) (m : Int) : Inv (init V E m) := by
  refine ⟨rfl, rfl, le_max_right m 0, ?_, ?_, List.Pairwise.nil, ?_, ?_⟩
  · intro i hi
    exact absurd hi (List.not_mem_nil i)
  · intro r hr
    exact absurd hr (List.not_mem_nil r)
  · intro hne
    exact absurd rfl hne
  · intro r hr
    exact absurd hr (List.not_mem_nil r)

theorem reachable_inv {s : ConcurrentScheduler V E} (h : Reachable s) : Inv s := by
  induction h with
  | init m => exact init_inv V E m
  | step hr hstep ih =>
    cases hstep with
    | submit => exact addTask_inv ih
    | finish _ _ hrun => exact settleTask_inv ih hrun

/-! ### Preservation of individual fields across the operations -/

theorem executeNext_maxConcurrent (s : ConcurrentScheduler V E) :
    (executeNext s).maxConcurrent = s.maxConcurrent := by
  by_cases hg : s.maxConcurrent ≤ s.runningCount
  · rw [executeNext_guard hg]
  · cases hq : s.taskQueue with
    | nil => rw [executeNext_empty hq]
    | cons i rest => rw [executeNext_dispatch hg hq]

theorem executeNext_taskId (s : ConcurrentScheduler V E) :
    (executeNext s).taskId = s.taskId := by
  by_cases hg : s.maxConcurrent ≤ s.runningCount
  · rw [executeNext_guard hg]
  · cases hq : s.taskQueue with
    | nil => rw [executeNext_empty hq]
    | cons i rest => rw [executeNext_dispatch hg hq]

theorem executeNext_map_id (s : ConcurrentScheduler V E) :
    (executeNext s).tasks.map (fun r => r.id) = s.tasks.map (fun r => r.id) := by
  by_cases hg : s.maxConcurrent ≤ s.runningCount
  · rw [executeNext_guard hg]
  · cases hq : s.taskQueue with
    | nil => rw [executeNext_empty hq]
    | cons i rest =>
      rw [executeNext_dispatch hg hq]
      exact updateTask_map_id s.tasks i _ (fun r => rfl)

theorem addTask_maxConcurrent (s : ConcurrentScheduler V E) :
    (addTask s).maxConcurrent = s.maxConcurrent := by
  rw [addTask, executeNext_maxConcurrent]

theorem addTask_taskId (s : ConcurrentScheduler V E) :
    (addTask s).taskId = s.taskId + 1 := by
  rw [addTask, executeNext_taskId]

theorem addTask_map_id (s : ConcurrentScheduler V E) :
    (addTask s).tasks.map (fun r => r.id) =
      s.tasks.map (fun r => r.id) ++ [s.taskId + 1] := by
  rw [addTask, executeNext_map_id, List.map_append]
  rfl

theorem settleTask_maxConcurrent (s : ConcurrentScheduler V E) (i : Nat) (o : Outcome V E) :
    (settleTask s i o).maxConcurrent = s.maxConcurrent := by
  rw [settleTask, executeNext_maxConcurrent]

theorem settleTask_map_id (s : ConcurrentScheduler V E) (i : Nat) (o : Outcome V E) :
    (settleTask s i o).tasks.map (fun r => r.id) = s.tasks.map (fun r => r.id) := by
  rw [settleTask, executeNext_map_id]
  exact updateTask_map_id s.tasks i _ (fun r => rfl)

theorem step_maxConcurrent {s t : ConcurrentScheduler V E} {e : Event V E}
    (h : Step s e t) : t.maxConcurrent = s.maxConcurrent := by
  cases h with
  | submit => exact addTask_maxConcurrent s
  | finish i o _ => exact settleTask_maxConcurrent s i o

theorem steps_maxConcurrent {s t : ConcurrentScheduler V E}
    (h : Steps s t) : t.maxConcurrent = s.maxConcurrent := by
  induction h with
  | refl => rfl
  | tail hs hstep ih => rw [step_maxConcurrent hstep, ih]

theorem reachable_steps {s t : ConcurrentScheduler V E}
    (hr : Reachable s) (hs : Steps s t) : Reachable t := by
  induction hs with
  | refl => exact hr
  | tail hs hstep ih => exact Reachable.step ih hstep

theorem drainSteps_steps {s t : ConcurrentScheduler V E}
    (h : DrainSteps s t) : Steps s t := by
  induction h with
  | refl => exact Steps.refl s
  | tail hs hstep ih => exact Steps.tail ih hstep

theorem DrainSteps.head {s t u : ConcurrentScheduler V E} {i : Nat} {o : Outcome V E}
    (h1 : Step s (Event.finish i o) t) (h2 : DrainSteps t u) : DrainSteps s u := by
  induction h2 with
  | refl => exact DrainSteps.tail (DrainSteps.refl s) h1
  | tail hs hstep ih => exact DrainSteps.tail ih hstep

/-! ### Lookup stability -/

theorem find?_append_of_some {α : Type} {l1 l2 : List α} {p : α → Bool} {a : α}
    (h : l1.find? p = some a) : (l1 ++ l2).find? p = some a := by
  induction l1 with
  | nil => cases h
  | cons x t ih =>
    by_cases hx : p x
    · rw [List.find?_cons_of_pos _ hx] at h
      rw [List.cons_append, List.find?_cons_of_pos _ hx]
      exact h
    · rw [List.find?_cons_of_neg _ hx] at h
      rw [List.cons_append, List.find?_cons_of_neg _ hx]
      exact ih h

theorem findTask_executeNext_of_not_queued {u : ConcurrentScheduler V E} {i : Nat}
    (hnq : i ∉ u.taskQueue) :
    findTask (executeNext u) i = findTask u i := by
  by_cases hg : u.maxConcurrent ≤ u.runningCount
  · rw [executeNext_guard hg]
  · cases hq : u.taskQueue with
    | nil => rw [executeNext_empty hq]
    | cons j rest =>
      rw [executeNext_dispatch hg hq]
      have hji : i ≠ j := by
        intro hc
        exact hnq (hc ▸ hq ▸ List.mem_cons_self j rest)
      show (updateTask u.tasks j _).find? _ = _
      exact find?_updateTask_ne u.tasks j i _ (fun r => rfl) hji

theorem findTask_executeNext_not_queued (mc rc : Int) (q : List Nat) (tid : Nat)
    (tl : List (TaskRecord V E)) {i : Nat} (hnq : i ∉ q) :
    findTask (executeNext ⟨mc, rc, q, tid, tl⟩) i = findTask ⟨mc, rc, q, tid, tl⟩ i :=
  @findTask_executeNext_of_not_queued V E ⟨mc, rc, q, tid, tl⟩ i hnq

theorem not_queued_of_settled {s : ConcurrentScheduler V E} (hInv : Inv s)
    {i : Nat} {r : TaskRecord V E} (hf : findTask s i = some r)
    (hterm : r.status = Status.completed ∨ r.status = Status.failed) :
    i ∉ s.taskQueue := by
  have hmem : r ∈ s.tasks := List.mem_of_find?_eq_some hf
  have hid : r.id = i := by simpa using List.find?_some hf
  intro hc
  have hpend := (hInv.pending_iff r hmem).mpr (hid ▸ hc)
  rcases hterm with ht | ht <;> rw [ht] at hpend <;> cases hpend

theorem settled_terminal {s : ConcurrentScheduler V E} (hInv : Inv s)
    {i : Nat} {r : TaskRecord V E} (hf : findTask s i = some r)
    {o : Outcome V E} (ho : r.settled = some o) :
    r.status = Status.completed ∨ r.status = Status.failed := by
  have hmem : r ∈ s.tasks := List.mem_of_find?_eq_some hf
  have hok := hInv.settled_ok r hmem
  cases hs : r.status with
  | pending => rw [hok.1 hs] at ho; cases ho
  | running => rw [hok.2.1 hs] at ho; cases ho
  | completed => exact Or.inl rfl
  | failed => exact Or.inr rfl

theorem settled_stable_step {s t : ConcurrentScheduler V E} {e : Event V E}
    (hInv : Inv s) (hstep : Step s e t) {i : Nat} {r : TaskRecord V E}
    (hf : findTask s i = some r) {o : Outcome V E} (ho : r.settled = some o) :
    findTask t i = some r := by
  have hmem : r ∈ s.tasks := List.mem_of_find?_eq_some hf
  have hid : r.id = i := by simpa using List.find?_some hf
  have hterm := settled_terminal hInv hf ho
  have hnq : i ∉ s.taskQueue := not_queued_of_settled hInv hf hterm
  have hile : i ≤ s.taskId := hid ▸ (hInv.id_bounds hmem).2
  cases hstep with
  | submit =>
    rw [addTask, findTask_executeNext_of_not_queued]
    · show (s.tasks ++ _).find? _ = _
      exact find?_append_of_some hf
    · show i ∉ s.taskQueue ++ [s.taskId + 1]
      intro hc
      rcases List.mem_append.mp hc with h1 | h2
      · exact hnq h1
      · have : i = s.taskId + 1 := List.mem_singleton.mp h2
        omega
  | finish j o2 hrun =>
    have hji : i ≠ j := by
      intro hc
      subst hc
      obtain ⟨r2, hf2, _, _, hst2⟩ := statusOf_running_elim hrun
      rw [findTask] at hf
      rw [hf] at hf2
      cases hf2
      rcases hterm with ht | ht <;> rw [ht] at hst2 <;> cases hst2
    rw [settleTask, findTask_executeNext_not_queued _ _ _ _ _ hnq]
    show (updateTask s.tasks j _).find? _ = _
    rw [find?_updateTask_ne s.tasks j i
      (fun r => { r with status := terminalOf o2, settled := some o2 }) (fun r => rfl) hji]
    exact hf

theorem settled_stable_steps {s t : ConcurrentScheduler V E}
    (hr : Reachable s) (hs : Steps s t) {i : Nat} {r : TaskRecord V E}
    (hf : findTask s i = some r) {o : Outcome V E} (ho : r.settled = some o) :
    findTask t i = some r := by
  induction hs with
  | refl => exact hf
  | tail hsteps hstep ih =>
    exact settled_stable_step (reachable_inv (reachable_steps hr hsteps)) hstep ih ho

theorem settleTask_findTask_self {s : ConcurrentScheduler V E} {i : Nat}
    {r : TaskRecord V E} (hInv : Inv s)
    (hf : findTask s i = some r) (hrun : r.status = Status.running) (o : Outcome V E) :
    findTask (settleTask s i o) i =
      some { r with status := terminalOf o, settled := some o } := by
  have hmem : r ∈ s.tasks := List.mem_of_find?_eq_some hf
  have hid : r.id = i := by simpa using List.find?_some hf
  have hnq : i ∉ s.taskQueue := by
    intro hc
    have hpend := (hInv.pending_iff r hmem).mpr (hid ▸ hc)
    rw [hrun] at hpend
    cases hpend
  rw [settleTask, findTask_executeNext_not_queued _ _ _ _ _ hnq]
  show (updateTask s.tasks i _).find? _ = _
  have hf2 : List.find? (fun r => r.id == i) s.tasks = some r := hf
  rw [find?_updateTask_self s.tasks i
    (fun r => { r with status := terminalOf o, settled := some o }) (fun r => rfl), hf2]
  rfl

/-! ### `executeNext` on explicitly destructured states -/

theorem executeNext_guard2 (mc rc : Int) (q : List Nat) (tid : Nat)
    (tl : List (TaskRecord V E)) (hg : mc ≤ rc) :
    executeNext ⟨mc, rc, q, tid, tl⟩ = ⟨mc, rc, q, tid, tl⟩ :=
  executeNext_guard hg

theorem executeNext_empty2 (mc rc : Int) (tid : Nat)
    (tl : List (TaskRecord V E)) :
    executeNext ⟨mc, rc, [], tid, tl⟩ = ⟨mc, rc, [], tid, tl⟩ :=
  executeNext_empty rfl

theorem executeNext_dispatch2 (mc rc : Int) (i : Nat) (rest : List Nat) (tid : Nat)
    (tl : List (TaskRecord V E)) (hg : ¬ mc ≤ rc) :
    executeNext ⟨mc, rc, i :: rest, tid, tl⟩ =
      ⟨mc, rc + 1, rest, tid,
        updateTask tl i (fun r => { r with status := Status.running })⟩ :=
  @executeNext_dispatch V E ⟨mc, rc, i :: rest, tid, tl⟩ i rest hg rfl

/-! ### Counting still-active wrappers -/

theorem countActive_executeNext2 (mc rc : Int) (q : List Nat) (tid : Nat)
    (tl : List (TaskRecord V E))
    (hnd : (tl.map (fun r => r.id)).Nodup)
    (hpend : ∀ j ∈ q, ∀ r ∈ tl, r.id = j → r.status = Status.pending) :
    countActive (executeNext ⟨mc, rc, q, tid, tl⟩).tasks = countActive tl := by
  by_cases hg : mc ≤ rc
  · rw [executeNext_guard2 mc rc q tid tl hg]
  · cases q with
    | nil => rw [executeNext_empty2 mc rc tid tl]
    | cons j rest =>
      rw [executeNext_dispatch2 mc rc j rest tid tl hg]
      show countActive (updateTask tl j _) = _
      by_cases hjmem : j ∈ tl.map (fun r => r.id)
      · obtain ⟨r, hrmem, hrid⟩ := List.mem_map.mp hjmem
        have hrpend : r.status = Status.pending :=
          hpend j (List.mem_cons_self j rest) r hrmem hrid
        have hcount := countP_updateTask tl j
          (fun r => { r with status := Status.running })
          (fun r => r.status == Status.pending || r.status == Status.running)
          hnd r hrmem hrid
        simp [hrpend] at hcount
        simpa [countActive] using hcount
      · rw [updateTask_eq_self tl j _ hjmem]

theorem countActive_settleTask {s : ConcurrentScheduler V E} {i : Nat} (o : Outcome V E)
    (hInv : Inv s) (hrun : statusOf s i = some Status.running) :
    countActive (settleTask s i o).tasks + 1 = countActive s.tasks := by
  obtain ⟨r0, hfind, hr0mem, hr0id, hst⟩ := statusOf_running_elim hrun
  have hcount := countP_updateTask s.tasks i
    (fun r => { r with status := terminalOf o, settled := some o })
    (fun r => r.status == Status.pending || r.status == Status.running)
    hInv.ids_nodup r0 hr0mem hr0id
  have hterm1 : (terminalOf o == Status.pending) = false := by cases o <;> rfl
  have hterm2 : (terminalOf o == Status.running) = false := by cases o <;> rfl
  simp [hst, hterm1, hterm2] at hcount
  have hndu : ((updateTask s.tasks i
      (fun r => { r with status := terminalOf o, settled := some o })).map
        (fun r => r.id)).Nodup := by
    rw [updateTask_map_id s.tasks i
      (fun r => { r with status := terminalOf o, settled := some o }) (fun r => rfl)]
    exact hInv.ids_nodup
  have hpendu : ∀ j ∈ s.taskQueue, ∀ r ∈ updateTask s.tasks i
      (fun r => { r with status := terminalOf o, settled := some o }),
      r.id = j → r.status = Status.pending := by
    intro j hj x hx hxid
    obtain ⟨r, hrmem, hreq⟩ := mem_updateTask.mp hx
    by_cases hid : r.id = i
    · rw [if_pos hid] at hreq
      subst hreq
      have hij : i = j := by
        have : r.id = j := hxid
        omega
      subst hij
      have hpend := (hInv.pending_iff r0 hr0mem).mpr (hr0id ▸ hj)
      rw [hst] at hpend
      cases hpend
    · rw [if_neg hid] at hreq
      subst hreq
      exact (hInv.pending_iff x hrmem).mpr (hxid ▸ hj)
  obtain ⟨mc, rc, q, tid, tl⟩ := s
  rw [settleTask]
  have hres := countActive_executeNext2 mc (rc - 1) q tid
    (updateTask tl i (fun r => { r with status := terminalOf o, settled := some o }))
    hndu hpendu
  rw [hres]
  show countActive (updateTask tl i _) + 1 = countActive tl
  simpa [countActive] using hcount

theorem drained_of_no_active {s : ConcurrentScheduler V E} (hInv : Inv s)
    (h0 : countActive s.tasks = 0) :
    s.taskQueue = [] ∧ s.runningCount = 0 := by
  have hall : ∀ r ∈ s.tasks,
      ¬(r.status == Status.pending || r.status == Status.running) = true := by
    rw [countActive] at h0
    exact List.countP_eq_zero.mp h0
  have hq : s.taskQueue = [] := by
    cases hq : s.taskQueue with
    | nil => rfl
    | cons j rest =>
      obtain ⟨r, hrmem, hrid⟩ := List.mem_map.mp
        (hInv.queue_mem j (hq ▸ List.mem_cons_self j rest))
      have hpend := (hInv.pending_iff r hrmem).mpr
        (hrid ▸ hq ▸ List.mem_cons_self j rest)
      exact absurd (by simp [hpend]) (hall r hrmem)
  have hrun0 : countRunning s.tasks = 0 := by
    rw [countRunning]
    rw [List.countP_eq_zero]
    intro r hr
    intro hc
    exact hall r hr (by simp_all)
  refine ⟨hq, ?_⟩
  rw [hInv.run_eq, hrun0]
  rfl

theorem drain_aux : ∀ (n : Nat) (s : ConcurrentScheduler V E), Reachable s →
    1 ≤ s.maxConcurrent → countActive s.tasks ≤ n → Nonempty (Outcome V E) →
    ∃ t, DrainSteps s t ∧ t.taskQueue = [] ∧ t.runningCount = 0 ∧
      countActive t.tasks = 0 ∧
      t.tasks.map (fun r => r.id) = s.tasks.map (fun r => r.id) ∧
      t.maxConcurrent = s.maxConcurrent := by
  intro n
  induction n with
  | zero =>
    intro s hr hm hc _
    have h0 : countActive s.tasks = 0 := Nat.le_zero.mp hc
    obtain ⟨hq, hrun⟩ := drained_of_no_active (reachable_inv hr) h0
    exact ⟨s, DrainSteps.refl s, hq, hrun, h0, rfl, rfl⟩
  | succ n ih =>
    intro s hr hm hc ho
    by_cases h0 : countActive s.tasks = 0
    · obtain ⟨hq, hrun⟩ := drained_of_no_active (reachable_inv hr) h0
      exact ⟨s, DrainSteps.refl s, hq, hrun, h0, rfl, rfl⟩
    · have hInv := reachable_inv hr
      have hex : ∃ r ∈ s.tasks, r.status = Status.running := by
        by_contra hnone
        push_neg at hnone
        have hrun0 : countRunning s.tasks = 0 := by
          rw [countRunning, List.countP_eq_zero]
          intro r hrm hc2
          exact hnone r hrm (by simpa using hc2)
        have hrc : s.runningCount = 0 := by rw [hInv.run_eq, hrun0]; rfl
        have hq : s.taskQueue = [] := by
          cases hq : s.taskQueue with
          | nil => rfl
          | cons j rest =>
            have := hInv.queue_busy (by rw [hq]; exact List.cons_ne_nil j rest)
            rw [hrc] at this
            omega
        have : countActive s.tasks = 0 := by
          rw [countActive, List.countP_eq_zero]
          intro r hrm hc2
          rcases Bool.or_eq_true_iff.mp hc2 with hp | hp
          · have hpend : r.status = Status.pending := by simpa using hp
            have := (hInv.pending_iff r hrm).mp hpend
            rw [hq] at this
            cases this
          · have hrr : r.status = Status.running := by simpa using hp
            exact hnone r hrm hrr
        exact h0 this
      obtain ⟨r, hrmem, hrst⟩ := hex
      obtain ⟨o⟩ := ho
      have hfind : s.tasks.find? (fun x => x.id == r.id) = some r :=
        find?_eq_of_mem_nodup hInv.ids_nodup hrmem
      have hstatus : statusOf s r.id = some Status.running := by
        rw [statusOf, findTask, hfind, Option.map_some', hrst]
      have hstep : Step s (Event.finish r.id o) (settleTask s r.id o) :=
        Step.finish s r.id o hstatus
      have hr2 : Reachable (settleTask s r.id o) := Reachable.step hr hstep
      have hm2 : 1 ≤ (settleTask s r.id o).maxConcurrent := by
        rw [settleTask_maxConcurrent]
        exact hm
      have hc2 : countActive (settleTask s r.id o).tasks ≤ n := by
        have := countActive_settleTask o hInv hstatus
        omega
      obtain ⟨t, hdrain, hq, hrun, h0t, hmap, hmc⟩ := ih (settleTask s r.id o) hr2 hm2 hc2 ⟨o⟩
      refine ⟨t, DrainSteps.head hstep hdrain, hq, hrun, h0t, ?_, ?_⟩
      · rw [hmap, settleTask_map_id]
      · rw [hmc, settleTask_maxConcurrent]

/-! ### The dispatched task is the queue head and becomes `'running'` -/

theorem executeNext_dispatch_status {s : ConcurrentScheduler V E} {i : Nat}
    {rest : List Nat} (hInv : Inv s)
    (hg : ¬ s.maxConcurrent ≤ s.runningCount) (hq : s.taskQueue = i :: rest) :
    (executeNext s).taskQueue = rest ∧
      statusOf (executeNext s) i = some Status.running := by
  obtain ⟨r, hrmem, hrid⟩ := List.mem_map.mp
    (hInv.queue_mem i (hq ▸ List.mem_cons_self i rest))
  have hfind : s.tasks.find? (fun x => x.id == i) = some r := by
    have := find?_eq_of_mem_nodup hInv.ids_nodup hrmem
    rw [hrid] at this
    exact this
  rw [executeNext_dispatch hg hq]
  refine ⟨rfl, ?_⟩
  show ((updateTask s.tasks i
      (fun r => { r with status := Status.running })).find?
      (fun x => x.id == i)).map (fun r => r.status) = some Status.running
  rw [find?_updateTask_self s.tasks i
    (fun r => { r with status := Status.running }) (fun r => rfl), hfind]
  rfl

/-! ### A scheduler constructed with `maxConcurrent ≤ 0` never runs anything -/

/-- Everything that stays true forever when `maxConcurrent ≤ 0`: nothing is
ever dispatched, every wrapper stays `'pending'` and unsettled, and the queue
holds every wrapper ever submitted. -/
structure DegenerateInv (s : ConcurrentScheduler V E) : Prop where
  run0 : s.runningCount = 0
  allPending : ∀ r ∈ s.tasks, r.status = Status.pending ∧ r.settled = none
  queueAll : s.taskQueue = s.tasks.map (fun r => r.id)

theorem degenerate_inv {s : ConcurrentScheduler V E} (h : Reachable s) :
    s.maxConcurrent ≤ 0 → DegenerateInv s := by
  induction h with
  | init m =>
    intro _
    exact ⟨rfl, fun r hr => absurd hr (List.not_mem_nil r), rfl⟩
  | @step p t e hr hstep ih =>
    intro hm
    rw [step_maxConcurrent hstep] at hm
    obtain ⟨hrun0, hpend, hqall⟩ := ih hm
    cases hstep with
    | submit =>
      obtain ⟨mc, rc, q, tid, tl⟩ := p
      have hrc : rc = 0 := hrun0
      have hmc : mc ≤ 0 := hm
      subst hrc
      show DegenerateInv (executeNext
        ⟨mc, 0, q ++ [tid + 1], tid + 1,
          tl ++ [{ id := tid + 1, status := Status.pending, settled := none }]⟩)
      rw [executeNext_guard2 _ _ _ _ _ hmc]
      refine ⟨rfl, ?_, ?_⟩
      · intro r hr2
        rcases List.mem_append.mp hr2 with h1 | h2
        · exact hpend r h1
        · have : r = { id := tid + 1, status := Status.pending, settled := none } :=
            List.mem_singleton.mp h2
          subst this
          exact ⟨rfl, rfl⟩
      · have hq2 : q = tl.map (fun r => r.id) := hqall
        show q ++ [tid + 1] = List.map (fun r : TaskRecord V E => r.id) (tl ++ [{ id := tid + 1, status := Status.pending, settled := none }])
        rw [List.map_append, hq2]
        rfl
    | finish i o hrunning =>
      obtain ⟨r0, _, hr0mem, _, hst⟩ := statusOf_running_elim hrunning
      have := (hpend r0 hr0mem).1
      rw [hst] at this
      cases this

/-! ### Failure and success settle through identical bookkeeping -/

theorem settleTask_outcome_congr (s : ConcurrentScheduler V E) (i : Nat)
    (o o2 : Outcome V E) :
    (settleTask s i o).maxConcurrent = (settleTask s i o2).maxConcurrent ∧
    (settleTask s i o).runningCount = (settleTask s i o2).runningCount ∧
    (settleTask s i o).taskQueue = (settleTask s i o2).taskQueue ∧
    (settleTask s i o).taskId = (settleTask s i o2).taskId ∧
    ∀ j, j ≠ i → findTask (settleTask s i o) j = findTask (settleTask s i o2) j := by
  obtain ⟨mc, rc, q, tid, tl⟩ := s
  have hset : ∀ o3 : Outcome V E, settleTask ⟨mc, rc, q, tid, tl⟩ i o3 =
      executeNext ⟨mc, rc - 1, q, tid, updateTask tl i
        (fun r => { r with status := terminalOf o3, settled := some o3 })⟩ :=
    fun o3 => rfl
  rw [hset o, hset o2]
  by_cases hg : mc ≤ rc - 1
  · rw [executeNext_guard2 _ _ _ _ _ hg, executeNext_guard2 _ _ _ _ _ hg]
    refine ⟨rfl, rfl, rfl, rfl, ?_⟩
    intro j hj
    show (updateTask tl i _).find? _ = (updateTask tl i _).find? _
    rw [find?_updateTask_ne tl i j
      (fun r => { r with status := terminalOf o, settled := some o }) (fun r => rfl) hj]
    rw [find?_updateTask_ne tl i j
      (fun r => { r with status := terminalOf o2, settled := some o2 }) (fun r => rfl) hj]
  · cases q with
    | nil =>
      rw [executeNext_empty2, executeNext_empty2]
      refine ⟨rfl, rfl, rfl, rfl, ?_⟩
      intro j hj
      show (updateTask tl i _).find? _ = (updateTask tl i _).find? _
      rw [find?_updateTask_ne tl i j
        (fun r => { r with status := terminalOf o, settled := some o }) (fun r => rfl) hj]
      rw [find?_updateTask_ne tl i j
        (fun r => { r with status := terminalOf o2, settled := some o2 }) (fun r => rfl) hj]
    | cons a rest =>
      rw [executeNext_dispatch2 _ _ _ _ _ _ hg, executeNext_dispatch2 _ _ _ _ _ _ hg]
      refine ⟨rfl, rfl, rfl, rfl, ?_⟩
      intro j hj
      show (updateTask (updateTask tl i _) a _).find? _ =
        (updateTask (updateTask tl i _) a _).find? _
      by_cases hja : j = a
      · subst hja
        rw [find?_updateTask_self (updateTask tl i
            (fun r => { r with status := terminalOf o, settled := some o })) j
          (fun r => { r with status := Status.running }) (fun r => rfl)]
        rw [find?_updateTask_self (updateTask tl i
            (fun r => { r with status := terminalOf o2, settled := some o2 })) j
          (fun r => { r with status := Status.running }) (fun r => rfl)]
        rw [find?_updateTask_ne tl i j
          (fun r => { r with status := terminalOf o, settled := some o }) (fun r => rfl) hj]
        rw [find?_updateTask_ne tl i j
          (fun r => { r with status := terminalOf o2, settled := some o2 }) (fun r => rfl) hj]
      · rw [find?_updateTask_ne (updateTask tl i
            (fun r => { r with status := terminalOf o, settled := some o })) a j
          (fun r => { r with status := Status.running }) (fun r => rfl) hja]
        rw [find?_updateTask_ne (updateTask tl i
            (fun r => { r with status := terminalOf o2, settled := some o2 })) a j
          (fun r => { r with status := Status.running }) (fun r => rfl) hja]
        rw [find?_updateTask_ne tl i j
          (fun r => { r with status := terminalOf o, settled := some o }) (fun r => rfl) hj]
        rw [find?_updateTask_ne tl i j
          (fun r => { r with status := terminalOf o2, settled := some o2 }) (fun r => rfl) hj]

/-! ### The queue length equals the number of pending wrappers -/

theorem queue_length_eq_countPending {s : ConcurrentScheduler V E} (hInv : Inv s) :
    s.taskQueue.length = countPending s.tasks := by
  have hqnd : s.taskQueue.Nodup :=
    hInv.queue_sorted.imp (fun hab => Nat.ne_of_lt hab)
  have hfnd : ((s.tasks.filter (fun r => r.status == Status.pending)).map
      (fun r => r.id)).Nodup :=
    List.Nodup.sublist (List.Sublist.map _ (List.filter_sublist s.tasks)) hInv.ids_nodup
  have hperm : s.taskQueue.Perm
      ((s.tasks.filter (fun r => r.status == Status.pending)).map (fun r => r.id)) := by
    rw [List.perm_ext_iff_of_nodup hqnd hfnd]
    intro j
    constructor
    · intro hj
      obtain ⟨r, hrmem, hrid⟩ := List.mem_map.mp (hInv.queue_mem j hj)
      have hpend : r.status = Status.pending :=
        (hInv.pending_iff r hrmem).mpr (hrid ▸ hj)
      exact List.mem_map.mpr ⟨r, List.mem_filter.mpr ⟨hrmem, by simp [hpend]⟩, hrid⟩
    · intro hj
      obtain ⟨r, hrf, hrid⟩ := List.mem_map.mp hj
      obtain ⟨hrmem, hrpend⟩ := List.mem_filter.mp hrf
      have hpend : r.status = Status.pending := by simpa using hrpend
      exact hrid ▸ (hInv.pending_iff r hrmem).mp hpend
  rw [hperm.length_eq, List.length_map, countPending, List.countP_eq_length_filter]

/-! ## Concrete sample runs used by the witnesses -/

/-- One task submitted to a capacity-2 scheduler: it is dispatched at once. -/
def sample1 : ConcurrentScheduler Nat Nat := addTask (init Nat Nat 2)

theorem sample1_reachable : Reachable sample1 :=
  Reachable.step (Reachable.init 2) (Step.submit (init Nat Nat 2))

theorem sample1_status : statusOf sample1 1 = some Status.running := by decide

/-- Three tasks submitted to a capacity-1 scheduler: task 1 runs, tasks 2 and
3 wait in the queue. -/
def sample2 : ConcurrentScheduler Nat Nat :=
  addTask (addTask (addTask (init Nat Nat 1)))

theorem sample2_reachable : Reachable sample2 :=
  Reachable.step (Reachable.step (Reachable.step (Reachable.init 1)
    (Step.submit _)) (Step.submit _)) (Step.submit _)

/-- One task submitted to a capacity-0 scheduler: it is never dispatched. -/
def sample0 : ConcurrentScheduler Nat Nat := addTask (init Nat Nat 0)

theorem sample0_reachable : Reachable sample0 :=
  Reachable.step (Reachable.init 0) (Step.submit (init Nat Nat 0))

/-! ## The claims -/

/-- C1: in every reachable state of a scheduler whose configured capacity is
at least 1 (the spec's construction invariant `maxConcurrency ≥ 1`),
`0 ≤ runningCount ≤ maxConcurrency` holds; moreover `runningCount` always
equals the number of wrappers whose status is `'running'` (every increment by
a dispatch is matched by exactly one decrement by that task's settlement),
and `executeNext` leaves the state unchanged — in particular never increments
`runningCount` — whenever `runningCount ≥ maxConcurrent`. -/
theorem C1_concurrency_bound {V E : Type} {s : ConcurrentScheduler V E}
    (hr : Reachable s) (hm : 1 ≤ s.maxConcurrent) :
    0 ≤ s.runningCount ∧ s.runningCount ≤ s.maxConcurrent ∧
    s.runningCount = (countRunning s.tasks : Int) ∧
    (s.maxConcurrent ≤ s.runningCount → executeNext s = s) := by
  have hInv := reachable_inv hr
  refine ⟨?_, ?_, hInv.run_eq, fun hg => executeNext_guard hg⟩
  · rw [hInv.run_eq]
    exact Int.natCast_nonneg _
  · have hle := hInv.run_le
    rw [max_eq_left (by omega : (0 : Int) ≤ s.maxConcurrent)] at hle
    exact hle

theorem C1_concurrency_bound_witness :
    Reachable sample1 ∧ 1 ≤ sample1.maxConcurrent ∧
    0 ≤ sample1.runningCount ∧ sample1.runningCount ≤ sample1.maxConcurrent :=
  ⟨sample1_reachable, by decide,
    (C1_concurrency_bound sample1_reachable (by decide)).1,
    (C1_concurrency_bound sample1_reachable (by decide)).2.1⟩

/-- C2: dispatch is strict FIFO.  In every reachable state the queue is
strictly sorted by id, so its head has the lowest id among all queued
records; when `executeNext` starts a task (no guard, nonempty queue) it
removes exactly the head, marks that record `'running'`, and the head's id is
smaller than every other queued id — hence tasks queued together start in
ascending id (submission) order. -/
theorem C2_fifo_dispatch {V E : Type} {s : ConcurrentScheduler V E}
    (hr : Reachable s) :
    s.taskQueue.Pairwise (fun a b => a < b) ∧
    ∀ i rest, s.taskQueue = i :: rest →
      (∀ j ∈ rest, i < j) ∧
      (¬ s.maxConcurrent ≤ s.runningCount →
        (executeNext s).taskQueue = rest ∧
        statusOf (executeNext s) i = some Status.running) := by
  have hInv := reachable_inv hr
  refine ⟨hInv.queue_sorted, ?_⟩
  intro i rest hq
  have hsorted : (i :: rest).Pairwise (fun a b => a < b) := hq ▸ hInv.queue_sorted
  exact ⟨(List.pairwise_cons.mp hsorted).1,
    fun hg => executeNext_dispatch_status hInv hg hq⟩

theorem C2_fifo_dispatch_witness :
    Reachable sample2 ∧ sample2.taskQueue.Pairwise (fun a b => a < b) :=
  ⟨sample2_reachable, (C2_fifo_dispatch sample2_reachable).1⟩

/-- C3: exactly-once settlement mirroring the work's outcome.  When the work
of running task `i` settles with outcome `o`, the task's promise was still
unsettled just before, and afterwards it holds exactly `o` (value for value,
error for error: status `'completed'` for a success, `'failed'` for a
failure), and stays equal to `o` after every further sequence of steps — it
is never signalled a second time. -/
theorem C3_exactly_once_settlement {V E : Type} {s t : ConcurrentScheduler V E}
    {i : Nat} {o : Outcome V E}
    (hr : Reachable s) (hstep : Step s (Event.finish i o) t) :
    settledOf s i = some none ∧
    settledOf t i = some (some o) ∧
    statusOf t i = some (terminalOf o) ∧
    (∀ u, Steps t u → settledOf u i = some (some o)) := by
  have hInv := reachable_inv hr
  cases hstep with
  | finish _ _ hrun =>
    obtain ⟨r, hfind, hrmem, hrid, hst⟩ := statusOf_running_elim hrun
    have hnone : r.settled = none := (hInv.settled_ok r hrmem).2.1 hst
    have hfind2 : findTask s i = some r := hfind
    have hafter := settleTask_findTask_self hInv hfind2 hst o
    refine ⟨?_, ?_, ?_, ?_⟩
    · rw [settledOf, hfind2, Option.map_some', hnone]
    · rw [settledOf, hafter]
      rfl
    · rw [statusOf, hafter]
      rfl
    · intro u hsteps
      have hstable := settled_stable_steps
        (Reachable.step hr (Step.finish s i o hrun)) hsteps hafter rfl
      rw [settledOf, hstable]
      rfl

theorem C3_exactly_once_settlement_witness :
    Reachable sample1 ∧
    settledOf sample1 1 = some none ∧
    settledOf (settleTask sample1 1 (Outcome.success 7)) 1 =
      some (some (Outcome.success 7)) :=
  ⟨sample1_reachable,
    (C3_exactly_once_settlement sample1_reachable
      (Step.finish sample1 1 (Outcome.success 7) sample1_status)).1,
    (C3_exactly_once_settlement sample1_reachable
      (Step.finish sample1 1 (Outcome.success 7) sample1_status)).2.1⟩

/-- C4: a failing task is fully isolated.  Settling running task `i` with an
error marks it `'failed'` and rejects its promise with that very error;
`maxConcurrent` is unchanged; the settlement is literally the decrement of
`runningCount` followed by `executeNext`; and the resulting `runningCount`,
queue, id counter and every other task's record are identical to what a
successful settlement of the same task would have produced — subsequent
dispatch proceeds exactly as if the task had succeeded. -/
theorem C4_failure_isolation {V E : Type} {s : ConcurrentScheduler V E} {i : Nat}
    (hr : Reachable s) (hrun : statusOf s i = some Status.running) (e : E) (v : V) :
    statusOf (settleTask s i (Outcome.failure e)) i = some Status.failed ∧
    settledOf (settleTask s i (Outcome.failure e)) i =
      some (some (Outcome.failure e)) ∧
    (settleTask s i (Outcome.failure e)).maxConcurrent = s.maxConcurrent ∧
    settleTask s i (Outcome.failure e) = executeNext
      { s with
        runningCount := s.runningCount - 1
        tasks := updateTask s.tasks i (fun r =>
          { r with
            status := Status.failed
            settled := some (Outcome.failure e) }) } ∧
    (settleTask s i (Outcome.failure e)).runningCount =
      (settleTask s i (Outcome.success v)).runningCount ∧
    (settleTask s i (Outcome.failure e)).taskQueue =
      (settleTask s i (Outcome.success v)).taskQueue ∧
    (settleTask s i (Outcome.failure e)).taskId =
      (settleTask s i (Outcome.success v)).taskId ∧
    (settleTask s i (Outcome.failure e)).maxConcurrent =
      (settleTask s i (Outcome.success v)).maxConcurrent ∧
    ∀ j, j ≠ i → findTask (settleTask s i (Outcome.failure e)) j =
      findTask (settleTask s i (Outcome.success v)) j := by
  have hInv := reachable_inv hr
  obtain ⟨r, hfind, hrmem, hrid, hst⟩ := statusOf_running_elim hrun
  have hafter := settleTask_findTask_self hInv hfind hst (Outcome.failure e)
  obtain ⟨hc1, hc2, hc3, hc4, hc5⟩ :=
    settleTask_outcome_congr s i (Outcome.failure e) (Outcome.success v)
  refine ⟨?_, ?_, settleTask_maxConcurrent s i _, rfl, hc2, hc3, hc4, hc1, hc5⟩
  · rw [statusOf, hafter]
    rfl
  · rw [settledOf, hafter]
    rfl

theorem C4_failure_isolation_witness :
    Reachable sample1 ∧ statusOf sample1 1 = some Status.running ∧
    statusOf (settleTask sample1 1 (Outcome.failure 3)) 1 = some Status.failed :=
  ⟨sample1_reachable, sample1_status,
    (C4_failure_isolation sample1_reachable sample1_status 3 9).1⟩

/-- C5: drain completeness.  From every reachable state of a scheduler with
capacity ≥ 1, if no further task is submitted and every running task's work
eventually settles (some finite sequence of settlement events occurs), the
scheduler reaches a state where the queue is empty, `runningCount` is back to
0, and every task ever submitted has exactly one terminal status
(`'completed'` or `'failed'`) with its promise signalled. -/
theorem C5_drain_completeness {V E : Type} {s : ConcurrentScheduler V E}
    (hr : Reachable s) (hm : 1 ≤ s.maxConcurrent) (ho : Nonempty (Outcome V E)) :
    ∃ t, DrainSteps s t ∧ t.taskQueue = [] ∧ t.runningCount = 0 ∧
      t.tasks.map (fun r => r.id) = s.tasks.map (fun r => r.id) ∧
      ∀ r ∈ t.tasks, (r.status = Status.completed ∨ r.status = Status.failed) ∧
        ∃ o, r.settled = some o := by
  obtain ⟨t, hdrain, hq, hrun, h0, hmap, hmc⟩ :=
    drain_aux (countActive s.tasks) s hr hm le_rfl ho
  have hInvt := reachable_inv (reachable_steps hr (drainSteps_steps hdrain))
  refine ⟨t, hdrain, hq, hrun, hmap, ?_⟩
  intro r hrm
  have h02 : List.countP
      (fun r => r.status == Status.pending || r.status == Status.running)
      t.tasks = 0 := h0
  have hna := List.countP_eq_zero.mp h02 r hrm
  have hterm : r.status = Status.completed ∨ r.status = Status.failed := by
    cases hcs : r.status with
    | pending => rw [hcs] at hna; simp at hna
    | running => rw [hcs] at hna; simp at hna
    | completed => exact Or.inl rfl
    | failed => exact Or.inr rfl
  refine ⟨hterm, ?_⟩
  rcases hterm with ht | ht
  · obtain ⟨v2, hv⟩ := (hInvt.settled_ok r hrm).2.2.1 ht
    exact ⟨_, hv⟩
  · obtain ⟨e2, he⟩ := (hInvt.settled_ok r hrm).2.2.2 ht
    exact ⟨_, he⟩

theorem C5_drain_completeness_witness :
    Reachable sample1 ∧ 1 ≤ sample1.maxConcurrent ∧
    ∃ t, DrainSteps sample1 t ∧ t.taskQueue = [] ∧ t.runningCount = 0 ∧
      t.tasks.map (fun r => r.id) = sample1.tasks.map (fun r => r.id) ∧
      ∀ r ∈ t.tasks, (r.status = Status.completed ∨ r.status = Status.failed) ∧
        ∃ o, r.settled = some o :=
  ⟨sample1_reachable, by decide,
    C5_drain_completeness sample1_reachable (by decide) ⟨Outcome.success 0⟩⟩

/-- C6: the queue contains only `'pending'` records, never the same record
twice; and the scheduling step that removes a record from the queue is the
very step that marks it `'running'` (`executeNext` on a free slot removes the
head, sets its status to `'running'`, and the head is not among the remaining
queued ids, so it can never be dispatched again). -/
theorem C6_queue_only_pending {V E : Type} {s : ConcurrentScheduler V E}
    (hr : Reachable s) :
    (∀ r ∈ s.tasks, r.id ∈ s.taskQueue → r.status = Status.pending) ∧
    s.taskQueue.Nodup ∧
    ∀ i rest, s.taskQueue = i :: rest → ¬ s.maxConcurrent ≤ s.runningCount →
      (executeNext s).taskQueue = rest ∧
      statusOf (executeNext s) i = some Status.running ∧
      i ∉ rest := by
  have hInv := reachable_inv hr
  refine ⟨?_, hInv.queue_sorted.imp (fun h => Nat.ne_of_lt h), ?_⟩
  · intro r hrm hq
    exact (hInv.pending_iff r hrm).mpr hq
  · intro i rest hq hg
    obtain ⟨h1, h2⟩ := executeNext_dispatch_status hInv hg hq
    have hsorted : (i :: rest).Pairwise (fun a b => a < b) := hq ▸ hInv.queue_sorted
    refine ⟨h1, h2, ?_⟩
    intro hc
    exact lt_irrefl i ((List.pairwise_cons.mp hsorted).1 i hc)

theorem C6_queue_only_pending_witness :
    Reachable sample2 ∧ sample2.taskQueue.Nodup :=
  ⟨sample2_reachable, (C6_queue_only_pending sample2_reachable).2.1⟩

/-- C7: ids are assigned at submission time (`addTask` allocates
`taskId + 1` and appends the new record), so in every reachable state the
record table's ids are exactly `1, 2, …, taskId` in submission order —
strictly increasing and with no duplicates. -/
theorem C7_ids_strictly_increasing {V E : Type} {s : ConcurrentScheduler V E}
    (hr : Reachable s) :
    s.tasks.map (fun r => r.id) = List.range' 1 s.taskId ∧
    (s.tasks.map (fun r => r.id)).Pairwise (fun a b => a < b) ∧
    (s.tasks.map (fun r => r.id)).Nodup ∧
    (addTask s).taskId = s.taskId + 1 ∧
    (addTask s).tasks.map (fun r => r.id) =
      s.tasks.map (fun r => r.id) ++ [s.taskId + 1] := by
  have hInv := reachable_inv hr
  refine ⟨hInv.ids, ?_, hInv.ids_nodup, addTask_taskId s, addTask_map_id s⟩
  rw [hInv.ids]
  exact List.pairwise_lt_range' 1 s.taskId

theorem C7_ids_strictly_increasing_witness :
    Reachable sample2 ∧
    sample2.tasks.map (fun r => r.id) = List.range' 1 sample2.taskId :=
  ⟨sample2_reachable, (C7_ids_strictly_increasing sample2_reachable).1⟩

/-- C8: `getStatus` is a pure function of the state (the embedding gives it
type state → snapshot, mirroring that the JS method only reads fields), and
its snapshot is accurate: it reports exactly `maxConcurrent`, the current
`runningCount` (which equals the number of `'running'` records), the number
of queued records (which equals the number of `'pending'` records), and each
queued record's id with its status, which is always `'pending'`. -/
theorem C8_getStatus_accuracy {V E : Type} {s : ConcurrentScheduler V E}
    (hr : Reachable s) :
    (getStatus s).maxConcurrent = s.maxConcurrent ∧
    (getStatus s).running = s.runningCount ∧
    (getStatus s).waiting = s.taskQueue.length ∧
    (getStatus s).waiting = countPending s.tasks ∧
    (getStatus s).running = (countRunning s.tasks : Int) ∧
    (getStatus s).tasks = s.taskQueue.map (fun i => (i, statusOf s i)) ∧
    ∀ p ∈ (getStatus s).tasks, p.2 = some Status.pending := by
  have hInv := reachable_inv hr
  refine ⟨rfl, rfl, rfl, queue_length_eq_countPending hInv, hInv.run_eq, rfl, ?_⟩
  intro p hp
  obtain ⟨j, hj, hpe⟩ := List.mem_map.mp hp
  subst hpe
  show statusOf s j = some Status.pending
  obtain ⟨r, hrmem, hrid⟩ := List.mem_map.mp (hInv.queue_mem j hj)
  have hpend : r.status = Status.pending := (hInv.pending_iff r hrmem).mpr (hrid ▸ hj)
  have hfind : s.tasks.find? (fun x => x.id == j) = some r := by
    have := find?_eq_of_mem_nodup hInv.ids_nodup hrmem
    rw [hrid] at this
    exact this
  rw [statusOf, findTask, hfind, Option.map_some', hpend]

theorem C8_getStatus_accuracy_witness :
    Reachable sample2 ∧
    (getStatus sample2).waiting = countPending sample2.tasks ∧
    (getStatus sample2).running = sample2.runningCount :=
  ⟨sample2_reachable, (C8_getStatus_accuracy sample2_reachable).2.2.2.1,
    (C8_getStatus_accuracy sample2_reachable).2.1⟩

/-- C9 (counterexample): the claim that a `maxConcurrency < 1` is rejected at
construction time is false of the code: the JS constructor performs no
validation, so constructing with `maxConcurrency = 0 < 1` succeeds normally
and never produces an error. -/
theorem C9_counterexample :
    mkScheduler Nat Nat 0 = Except.ok (init Nat Nat 0) ∧
    ∀ msg : String, mkScheduler Nat Nat 0 ≠ Except.error msg :=
  ⟨rfl, fun _ h => nomatch h⟩

/-- C9 (amended): construction never rejects: for every `maxConcurrency`,
including values `< 1`, the constructor silently accepts it and returns the
initial state with that bound, zero running tasks and an empty queue. -/
theorem C9_amended_no_validation (V E : Type) (m : Int) :
    mkScheduler V E m = Except.ok (init V E m) ∧
    (init V E m).maxConcurrent = m ∧
    (init V E m).runningCount = 0 ∧
    (init V E m).taskQueue = [] :=
  ⟨rfl, rfl, rfl, rfl⟩

/-- C10: with `maxConcurrent ≤ 0` the scheduler accepts submissions but never
dispatches: in every reachable state `runningCount` is 0, every wrapper ever
created is still `'pending'` with an unsettled promise, the queue holds every
submitted id, and a further `addTask` still enqueues a new wrapper (id
`taskId + 1`) and returns its (never-settled) promise. -/
theorem C10_degenerate_never_runs {V E : Type} {s : ConcurrentScheduler V E}
    (hr : Reachable s) (hm : s.maxConcurrent ≤ 0) :
    s.runningCount = 0 ∧
    (∀ r ∈ s.tasks, r.status = Status.pending ∧ r.settled = none) ∧
    s.taskQueue = s.tasks.map (fun r => r.id) ∧
    (addTask s).taskQueue = s.taskQueue ++ [s.taskId + 1] ∧
    (addTask s).tasks.map (fun r => r.id) =
      s.tasks.map (fun r => r.id) ++ [s.taskId + 1] := by
  obtain ⟨h1, h2, h3⟩ := degenerate_inv hr hm
  refine ⟨h1, h2, h3, ?_, addTask_map_id s⟩
  have hm2 : (addTask s).maxConcurrent ≤ 0 := by
    rw [addTask_maxConcurrent]
    exact hm
  obtain ⟨_, _, h6⟩ := degenerate_inv (Reachable.step hr (Step.submit s)) hm2
  rw [h6, addTask_map_id s, ← h3]

theorem C10_degenerate_never_runs_witness :
    Reachable sample0 ∧ sample0.maxConcurrent ≤ 0 ∧
    sample0.runningCount = 0 ∧
    sample0.taskQueue = sample0.tasks.map (fun r => r.id) :=
  ⟨sample0_reachable, by decide,
    (C10_degenerate_never_runs sample0_reachable (by decide)).1,
    (C10_degenerate_never_runs sample0_reachable (by decide)).2.2.1⟩

end ConcurrentScheduler
